import Mathlib

/-!
# Verification of the review-blog automation pipeline

A shallow embedding of the pure core of `auto/main_with_search.py`:
product-name extraction, duplicate detection against the review ledger,
style-reference stripping, the review/revision protocol, quality gates,
section splitting and image interleaving, the rating heuristic, slugify,
and post saving.

Python strings are modelled as `String` / `List Char` (one element per code
point, matching Python's `len` and indexing).  Python's `str.lower` is
modelled by ASCII case mapping (`pyCharLower`); `str.strip` and `str.split`
by the whitespace set below.  `re` patterns used by the source are small and
concrete, so each one is embedded as an explicit backtracking scanner with
the same match semantics (leftmost match, greedy with backtracking,
non-overlapping scan for `findall`/`sub`).  File-system reads/writes and
`datetime.now()` are modelled by explicit parameters; exceptions by
`Except` values.  All definitions are fuel-based structural recursions so
that they evaluate inside the kernel.
-/

namespace ReviewBlog

/-! ## Character classes (Python semantics) -/

/-- Python whitespace as used by `str.split` / `str.strip` / `\s`
(restricted to the ASCII whitespace characters that can occur here). -/
def isPySpaceChar (c : Char) : Bool :=
  c = ' ' || c = '\t' || c = '\n' || c = '\r' || c = '\x0b' || c = '\x0c'

/-- ASCII lowercase letter. -/
def isLowerAlpha (c : Char) : Bool := 'a' ≤ c && c ≤ 'z'

/-- ASCII uppercase letter. -/
def isUpperAlpha (c : Char) : Bool := 'A' ≤ c && c ≤ 'Z'

/-- ASCII alphanumeric character. -/
def isAsciiAlnum (c : Char) : Bool := isLowerAlpha c || isUpperAlpha c || c.isDigit

/-- Python `str.lower`, modelled on the ASCII range: `A`-`Z` map to
`a`-`z`, every other character is unchanged. -/
def pyCharLower (c : Char) : Char :=
  if isUpperAlpha c then Char.ofNat (c.toNat + 32) else c

/-! ## Substring containment (Python `in` on strings) -/

/-- Python `needle in hay` for strings: contiguous substring test. -/
def strContains (hay needle : List Char) : Bool :=
  match hay with
  | [] => needle.isEmpty
  | _ :: t => needle.isPrefixOf hay || strContains t needle

theorem strContains_iff (hay needle : List Char) :
    strContains hay needle = true ↔ needle <:+: hay := by
  induction hay with
  | nil =>
    simp [strContains, List.isEmpty_iff]
  | cons c t ih =>
    simp only [strContains, Bool.or_eq_true, ih, List.isPrefixOf_iff_prefix,
      List.infix_cons_iff]

/-! ## Python `str.strip` and friends -/

/-- Remove the characters satisfying `p` from both ends of the list
(Python `str.strip()` / `str.strip('-')`). -/
def trimBoth (p : Char → Bool) (l : List Char) : List Char :=
  ((l.dropWhile p).reverse.dropWhile p).reverse

/-- Python `str.strip()` (whitespace). -/
def pystrip (l : List Char) : List Char := trimBoth isPySpaceChar l

theorem trimBoth_infix_self (p : Char → Bool) (l : List Char) : trimBoth p l <:+: l := by
  have h1 : (l.dropWhile p).reverse.dropWhile p <:+ (l.dropWhile p).reverse :=
    List.dropWhile_suffix p
  have h2 : trimBoth p l <+: l.dropWhile p := by
    rw [← List.reverse_suffix]
    simpa [trimBoth] using h1
  exact h2.isInfix.trans (List.dropWhile_suffix p).isInfix

theorem trimBoth_head (p : Char → Bool) (l : List Char) (x : Char)
    (h : (trimBoth p l).head? = some x) : p x = false := by
  unfold trimBoth at h
  set A := l.dropWhile p with hA
  set B := A.reverse.dropWhile p with hB
  have hBsuff : B <:+ A.reverse := List.dropWhile_suffix p
  obtain ⟨pre, hpre⟩ := hBsuff
  have hBne : B ≠ [] := by
    intro hnil
    rw [hnil] at h
    simp at h
  have hlast : B.getLast? = A.reverse.getLast? := by
    conv_rhs => rw [← hpre]
    exact (List.getLast?_append_of_ne_nil pre hBne).symm
  rw [List.head?_reverse, hlast, List.getLast?_reverse] at h
  have hAne : A ≠ [] := by
    intro hnil
    rw [hnil] at h
    simp at h
  have hp := List.head_dropWhile_not p l hAne
  rw [List.head?_eq_head hAne, Option.some_inj] at h
  rw [← h]
  exact hp

theorem trimBoth_last (p : Char → Bool) (l : List Char) (x : Char)
    (h : (trimBoth p l).getLast? = some x) : p x = false := by
  unfold trimBoth at h
  rw [List.getLast?_reverse] at h
  set A := l.dropWhile p with hA
  have hne : A.reverse.dropWhile p ≠ [] := by
    intro hnil
    rw [hnil] at h
    simp at h
  have hp := List.head_dropWhile_not p A.reverse hne
  rw [List.head?_eq_head hne, Option.some_inj] at h
  rw [← h]
  exact hp

theorem trimBoth_eq_nil_of_all (p : Char → Bool) (l : List Char)
    (h : ∀ c ∈ l, p c = true) : trimBoth p l = [] := by
  have h1 : l.dropWhile p = [] := by
    rw [List.dropWhile_eq_nil_iff]
    intro x hx; exact h x hx
  simp [trimBoth, h1]

theorem mem_trimBoth (p : Char → Bool) (l : List Char) (c : Char)
    (h : c ∈ trimBoth p l) : c ∈ l :=
  (trimBoth_infix_self p l).sublist.mem h

/-! ## Python `str.split()` (no separator: split on whitespace runs) -/

/-- Fuel-based scanner for `str.split()`.  `fuel ≥ s.length` makes the fuel
irrelevant; `pysplit` below always supplies enough. -/
def pysplitF : Nat → List Char → List (List Char)
  | 0, _ => []
  | _ + 1, [] => []
  | fuel + 1, c :: cs =>
    if isPySpaceChar c then pysplitF fuel cs
    else (c :: cs.takeWhile (fun x => !isPySpaceChar x)) ::
      pysplitF fuel (cs.dropWhile (fun x => !isPySpaceChar x))

/-- Python `s.split()`: maximal whitespace-free runs of `s`, in order. -/
def pysplit (s : List Char) : List (List Char) := pysplitF s.length s

theorem dropWhile_head?_not (p : Char → Bool) (l : List Char) (x : Char)
    (h : (l.dropWhile p).head? = some x) : p x = false := by
  induction l with
  | nil => simp at h
  | cons c t ih =>
    rw [List.dropWhile_cons] at h
    by_cases hc : p c = true
    · rw [if_pos hc] at h; exact ih h
    · rw [if_neg hc] at h
      injection h with h
      subst h
      simpa using hc

theorem pysplitF_words_good :
    ∀ fuel s, ∀ w ∈ pysplitF fuel s, w ≠ [] ∧ ∀ c ∈ w, isPySpaceChar c = false := by
  intro fuel
  induction fuel with
  | zero => intro s w hw; simp [pysplitF] at hw
  | succ fuel ih =>
    intro s w hw
    cases s with
    | nil => simp [pysplitF] at hw
    | cons c cs =>
      rw [pysplitF] at hw
      by_cases hc : isPySpaceChar c = true
      · rw [if_pos hc] at hw
        exact ih cs w hw
      · rw [if_neg hc] at hw
        rcases List.mem_cons.mp hw with hw | hw
        · subst hw
          refine ⟨by simp, ?_⟩
          intro a ha
          rcases List.mem_cons.mp ha with rfl | ha
          · simpa using hc
          · have := List.mem_takeWhile_imp ha
            simpa using this
        · exact ih _ w hw

theorem pysplit_words_good (s : List Char) :
    ∀ w ∈ pysplit s, w ≠ [] ∧ ∀ c ∈ w, isPySpaceChar c = false :=
  pysplitF_words_good s.length s

/-- Decomposing an infix of an append: it lies in the left part, in the
right part, or it contains the head of the right part. -/
theorem infix_append_cases {α : Type} (k a b : List α) (h : k <:+: a ++ b) :
    k <:+: a ∨ k <:+: b ∨ ∃ x, b.head? = some x ∧ x ∈ k := by
  induction a generalizing k with
  | nil => simp at h; exact Or.inr (Or.inl h)
  | cons y a2 ih =>
    rw [List.cons_append, List.infix_cons_iff] at h
    rcases h with h | h
    · match k with
      | [] => exact Or.inl List.nil_infix
      | z :: k2 =>
        obtain ⟨t, ht⟩ := h
        rw [List.cons_append] at ht
        injection ht with hz ht2
        subst hz
        have hk2 : k2 <+: a2 ++ b := ⟨t, ht2⟩
        rw [List.prefix_iff_eq_take] at hk2
        rw [List.take_append_eq_append_take] at hk2
        by_cases hlen : k2.length ≤ a2.length
        · have : k2 = a2.take k2.length := by
            rwa [Nat.sub_eq_zero_of_le hlen, List.take_zero, List.append_nil] at hk2
          have hpre : k2 <+: a2 := by rw [List.prefix_iff_eq_take]; exact this
          refine Or.inl ?_
          have : z :: k2 <+: z :: a2 := by
            obtain ⟨t2, ht3⟩ := hpre
            exact ⟨t2, by rw [List.cons_append, ht3]⟩
          exact this.isInfix
        · have ha2 : a2.take k2.length = a2 :=
            List.take_of_length_le (Nat.le_of_not_le hlen)
          rw [ha2] at hk2
          match hb : (b.take (k2.length - a2.length)) with
          | [] =>
            rw [hb, List.append_nil] at hk2
            subst hk2
            exact Or.inl List.infix_rfl
          | w :: rest =>
            have hwb : b.head? = some w := by
              have : w :: rest <+: b := by
                rw [← hb]; exact List.take_prefix _ _
              obtain ⟨t3, ht4⟩ := this
              rw [← ht4]; rfl
            refine Or.inr (Or.inr ⟨w, hwb, ?_⟩)
            rw [hk2, hb]
            simp
    · rcases ih k h with h2 | h2 | h2
      · exact Or.inl (h2.trans (List.infix_cons (List.infix_refl a2)))
      · exact Or.inr (Or.inl h2)
      · exact Or.inr (Or.inr h2)

/-- A nonempty whitespace-free substring of `s` is a substring of one of the
words of `s.split()`. -/
theorem infix_pysplitF :
    ∀ fuel s k, s.length ≤ fuel → k ≠ [] → (∀ c ∈ k, isPySpaceChar c = false) →
      k <:+: s → ∃ w ∈ pysplitF fuel s, k <:+: w := by
  intro fuel
  induction fuel with
  | zero =>
    intro s k hf hk _ hinf
    have hs : s = [] := List.length_eq_zero.mp (Nat.le_zero.mp hf)
    subst hs
    exact absurd (List.infix_nil.mp hinf) hk
  | succ fuel ih =>
    intro s k hf hk hsp hinf
    cases s with
    | nil => exact absurd (List.infix_nil.mp hinf) hk
    | cons c cs =>
      by_cases hc : isPySpaceChar c = true
      · have hcs : k <:+: cs := by
          rcases List.infix_cons_iff.mp hinf with h | h
          · match k with
            | [] => exact absurd rfl hk
            | z :: k2 =>
              obtain ⟨t, ht⟩ := h
              injection ht with hz _
              subst hz
              exact absurd hc (by simpa using hsp z (by simp))
          · exact h
        obtain ⟨w, hw, hkw⟩ :=
          ih cs k (by simpa using Nat.le_of_succ_le_succ (by simpa using hf)) hk hsp hcs
        refine ⟨w, ?_, hkw⟩
        rw [pysplitF, if_pos hc]
        exact hw
      · set T := cs.takeWhile (fun x => !isPySpaceChar x) with hT
        set R := cs.dropWhile (fun x => !isPySpaceChar x) with hR
        have hsplit : c :: cs = (c :: T) ++ R := by
          rw [List.cons_append]
          congr 1
          rw [hT, hR, List.takeWhile_append_dropWhile]
        rw [hsplit] at hinf
        rcases infix_append_cases k (c :: T) R hinf with h | h | h
        · refine ⟨c :: T, ?_, h⟩
          rw [pysplitF, if_neg hc]
          exact List.mem_cons_self _ _
        · have hRlen : R.length ≤ fuel := by
            have h1 : R.length ≤ cs.length := (List.dropWhile_sublist _).length_le
            have h2 : cs.length + 1 ≤ fuel + 1 := by simpa using hf
            omega
          obtain ⟨w, hw, hkw⟩ := ih R k hRlen hk hsp h
          refine ⟨w, ?_, hkw⟩
          rw [pysplitF, if_neg hc]
          exact List.mem_cons_of_mem _ hw
        · obtain ⟨x, hxR, hxk⟩ := h
          have hx : (!isPySpaceChar x) = false := by
            apply dropWhile_head?_not (fun y => !isPySpaceChar y) cs
            rw [← hR]
            exact hxR
          have hx2 : isPySpaceChar x = true := by
            cases hpx : isPySpaceChar x
            · rw [hpx] at hx; simp at hx
            · rfl
          exact absurd (hsp x hxk) (by simp [hx2])

theorem infix_pysplit (s k : List Char) (hk : k ≠ [])
    (hsp : ∀ c ∈ k, isPySpaceChar c = false) (hinf : k <:+: s) :
    ∃ w ∈ pysplit s, k <:+: w :=
  infix_pysplitF s.length s k le_rfl hk hsp hinf

/-! ## Python `" ".join` on word lists -/

/-- `" ".join(ws)` at the character level. -/
def joinSpace : List (List Char) → List Char
  | [] => []
  | [w] => w
  | w :: ws => w ++ ' ' :: joinSpace ws

theorem joinSpace_ne_nil (ws : List (List Char)) (hne : ws ≠ [])
    (hgood : ∀ w ∈ ws, w ≠ []) : joinSpace ws ≠ [] := by
  match ws with
  | [w] =>
    simpa [joinSpace] using hgood w (by simp)
  | w :: w2 :: rest =>
    have : w ≠ [] := hgood w (by simp)
    simp [joinSpace]

theorem takeWhile_all {p : Char → Bool} {l : List Char}
    (h : ∀ c ∈ l, p c = true) : l.takeWhile p = l ∧ l.dropWhile p = [] := by
  induction l with
  | nil => simp
  | cons c t ih =>
    have hc := h c (by simp)
    have ht := ih (fun x hx => h x (by simp [hx]))
    simp [List.takeWhile_cons, List.dropWhile_cons, hc, ht.1, ht.2]

theorem takeWhile_append_stop {p : Char → Bool} {t : List Char} {x : Char}
    {r : List Char} (ht : ∀ c ∈ t, p c = true) (hx : p x = false) :
    (t ++ x :: r).takeWhile p = t ∧ (t ++ x :: r).dropWhile p = x :: r := by
  induction t with
  | nil => simp [List.takeWhile_cons, List.dropWhile_cons, hx]
  | cons c t2 ih =>
    have hc := ht c (by simp)
    have h2 := ih (fun y hy => ht y (by simp [hy]))
    simp [List.takeWhile_cons, List.dropWhile_cons, hc, h2.1, h2.2]

/-- Splitting the `" ".join` of nonempty whitespace-free words recovers the
words. -/
theorem pysplitF_joinSpace :
    ∀ ws fuel, (∀ w ∈ ws, w ≠ [] ∧ ∀ c ∈ w, isPySpaceChar c = false) →
      (joinSpace ws).length ≤ fuel → pysplitF fuel (joinSpace ws) = ws := by
  intro ws
  induction ws with
  | nil => intro fuel _ _; cases fuel <;> simp [joinSpace, pysplitF]
  | cons w ws2 ih =>
    intro fuel hgood hf
    obtain ⟨hwne, hwsp⟩ := hgood w (by simp)
    match w, hwne with
    | c :: t, _ =>
      have hc : isPySpaceChar c = false := hwsp c (by simp)
      have ht : ∀ x ∈ t, (!isPySpaceChar x) = true := by
        intro x hx
        simp [hwsp x (by simp [hx])]
      match ws2 with
      | [] =>
        have hJ : joinSpace [c :: t] = c :: t := rfl
        rw [hJ] at hf ⊢
        cases fuel with
        | zero => simp at hf
        | succ fuel =>
          rw [pysplitF, if_neg (by simp [hc])]
          have h2 := takeWhile_all (p := fun x => !isPySpaceChar x) (l := t) ht
          rw [h2.1, h2.2]
          cases fuel <;> simp [pysplitF]
      | w2 :: rest =>
        have hJ : joinSpace ((c :: t) :: w2 :: rest) =
            c :: (t ++ ' ' :: joinSpace (w2 :: rest)) := by
          simp [joinSpace]
        rw [hJ] at hf ⊢
        cases fuel with
        | zero => simp at hf
        | succ fuel =>
          rw [pysplitF, if_neg (by simp [hc])]
          have h2 := takeWhile_append_stop (p := fun x => !isPySpaceChar x)
            (t := t) (x := ' ') (r := joinSpace (w2 :: rest)) ht (by simp [isPySpaceChar])
          rw [h2.1, h2.2]
          have hflen : t.length + 1 + (joinSpace (w2 :: rest)).length ≤ fuel := by
            simp [List.length_cons, List.length_append] at hf
            omega
          cases fuel with
          | zero => omega
          | succ fuel2 =>
            rw [pysplitF, if_pos (by simp [isPySpaceChar])]
            congr 1
            apply ih
            · intro w3 hw3
              exact hgood w3 (by simp [hw3])
            · omega

theorem pysplit_joinSpace (ws : List (List Char))
    (hgood : ∀ w ∈ ws, w ≠ [] ∧ ∀ c ∈ w, isPySpaceChar c = false) :
    pysplit (joinSpace ws) = ws :=
  pysplitF_joinSpace ws (joinSpace ws).length hgood le_rfl

/-! ## Python `str.replace(pat, "")` (delete all occurrences) -/

/-- Fuel-based scanner for `s.replace(pat, "")` with a nonempty `pat`. -/
def pyRemoveAllF (pat : List Char) : Nat → List Char → List Char
  | 0, s => s
  | _ + 1, [] => []
  | fuel + 1, c :: cs =>
    if pat.isPrefixOf (c :: cs) then pyRemoveAllF pat fuel ((c :: cs).drop pat.length)
    else c :: pyRemoveAllF pat fuel cs

def pyRemoveAll (s pat : List Char) : List Char := pyRemoveAllF pat s.length s

/-! ## Python `str.count(pat)` (non-overlapping, nonempty `pat`) -/

def pyCountOccurF (pat : List Char) : Nat → List Char → Nat
  | 0, _ => 0
  | _ + 1, [] => 0
  | fuel + 1, c :: cs =>
    if pat.isPrefixOf (c :: cs) then 1 + pyCountOccurF pat fuel ((c :: cs).drop pat.length)
    else pyCountOccurF pat fuel cs

def pyCountOccur (pat s : List Char) : Nat := pyCountOccurF pat s.length s

/-! ## The style-reference pattern

`STYLE_REF_PATTERN = @(?P<filename>[^\s]+)\s*\((?P<start>\d+)\s*-\s*(?P<end>\d+)\)`.

The scanner below reproduces the `re` semantics: at a match position, `@` is
consumed, the filename alternative is tried greedily from the longest
whitespace-free run downwards (the only component needing backtracking; for
the other greedy pieces the follow-set is disjoint, so maximal munch is
exact), and the parenthesised `start-end` digit groups follow. -/

/-- `\s*\(` : skip whitespace, then an opening parenthesis. -/
def styAfterOpen (s : List Char) : Option (List Char) :=
  match s.dropWhile isPySpaceChar with
  | '(' :: s2 => some s2
  | _ => none

/-- `\d+` : a nonempty digit group; returns the digits and the rest. -/
def styDigits (s : List Char) : Option (List Char × List Char) :=
  let ds := s.takeWhile Char.isDigit
  if ds.isEmpty then none else some (ds, s.drop ds.length)

/-- `\s*-` : skip whitespace, then a dash. -/
def styAfterDash (s : List Char) : Option (List Char) :=
  match s.dropWhile isPySpaceChar with
  | '-' :: s2 => some s2
  | _ => none

/-- `)` closing the group. -/
def styAfterClose (s : List Char) : Option (List Char) :=
  match s with
  | ')' :: s2 => some s2
  | _ => none

/-- The part of the pattern after the filename:
`\s*\(\d+\s*-\s*\d+\)`.  Returns (start digits, end digits, rest). -/
def styMatchTail (s : List Char) : Option (List Char × List Char × List Char) :=
  match styAfterOpen s with
  | none => none
  | some s2 =>
    match styDigits s2 with
    | none => none
    | some (ds, s3) =>
      match styAfterDash s3 with
      | none => none
      | some s4 =>
        match styDigits (s4.dropWhile isPySpaceChar) with
        | none => none
        | some (es, s5) =>
          match styAfterClose s5 with
          | none => none
          | some s6 => some (ds, es, s6)

/-- Greedy-with-backtracking filename: try the filename length `n`, `n-1`,
…, `1` against the tail pattern; `after` is the text after `@`.  Returns
(filename, start digits, end digits, rest). -/
def styTryFilename (after : List Char) :
    Nat → Option (List Char × List Char × List Char × List Char)
  | 0 => none
  | n + 1 =>
    match styMatchTail (after.drop (n + 1)) with
    | some (ds, es, rest) => some (after.take (n + 1), ds, es, rest)
    | none => styTryFilename after n

/-- Try to match the full style-reference pattern at the current position. -/
def styMatchAt (s : List Char) : Option (List Char × List Char × List Char × List Char) :=
  match s with
  | '@' :: after =>
    styTryFilename after (after.takeWhile (fun c => !isPySpaceChar c)).length
  | _ => none

/-- `re.search`: the leftmost match, together with the text before it.
Returns (prefix before the match, filename, start digits, end digits, rest
after the match). -/
def stySearchFull :
    List Char → Option (List Char × List Char × List Char × List Char × List Char)
  | [] => none
  | c :: cs =>
    match styMatchAt (c :: cs) with
    | some (fn, ds, es, rest) => some ([], fn, ds, es, rest)
    | none =>
      match stySearchFull cs with
      | some (pre, fn, ds, es, rest) => some (c :: pre, fn, ds, es, rest)
      | none => none

/-- `re.sub(pattern, "", s)`: delete every (non-overlapping, leftmost)
match.  Fuel-based; every match consumes at least the `@`. -/
def stySubAllF : Nat → List Char → List Char
  | 0, s => s
  | _ + 1, [] => []
  | fuel + 1, c :: cs =>
    match styMatchAt (c :: cs) with
    | some (_, _, _, rest) => stySubAllF fuel rest
    | none => c :: stySubAllF fuel cs

def stySubAll (s : List Char) : List Char := stySubAllF s.length s

theorem styAfterOpen_suffix {s s2 : List Char} (h : styAfterOpen s = some s2) :
    s2 <:+ s := by
  unfold styAfterOpen at h
  split at h
  · rename_i x heq
    injection h with h
    subst h
    exact (List.suffix_cons '(' _).trans (heq ▸ List.dropWhile_suffix isPySpaceChar)
  · exact absurd h (by simp)

theorem styDigits_suffix {s ds r : List Char} (h : styDigits s = some (ds, r)) :
    r <:+ s ∧ ds ≠ [] := by
  unfold styDigits at h
  by_cases he : (s.takeWhile Char.isDigit).isEmpty
  · rw [if_pos he] at h; exact absurd h (by simp)
  · rw [if_neg he] at h
    injection h with h
    obtain ⟨h1, h2⟩ : s.takeWhile Char.isDigit = ds ∧ s.drop (s.takeWhile Char.isDigit).length = r := by
      injection h with ha hb
      exact ⟨ha, hb⟩
    subst h2
    refine ⟨List.drop_suffix _ _, ?_⟩
    rw [← h1]
    simpa [List.isEmpty_iff] using he

theorem styAfterDash_suffix {s s2 : List Char} (h : styAfterDash s = some s2) :
    s2 <:+ s := by
  unfold styAfterDash at h
  split at h
  · rename_i x heq
    injection h with h
    subst h
    exact (List.suffix_cons '-' _).trans (heq ▸ List.dropWhile_suffix isPySpaceChar)
  · exact absurd h (by simp)

theorem styAfterClose_suffix {s s2 : List Char} (h : styAfterClose s = some s2) :
    s2 <:+ s := by
  unfold styAfterClose at h
  split at h
  · rename_i x
    injection h with h
    subst h
    exact List.suffix_cons ')' _
  · exact absurd h (by simp)

theorem styMatchTail_suffix {s ds es r : List Char}
    (h : styMatchTail s = some (ds, es, r)) : r <:+ s := by
  unfold styMatchTail at h
  split at h
  · exact absurd h (by simp)
  · rename_i s2 h1
    split at h
    · exact absurd h (by simp)
    · rename_i p ds2 s3 h2
      split at h
      · exact absurd h (by simp)
      · rename_i s4 h3
        split at h
        · exact absurd h (by simp)
        · rename_i q es2 s5 h4
          split at h
          · exact absurd h (by simp)
          · rename_i s6 h5
            obtain ⟨hds, hes, hr⟩ : ds2 = ds ∧ es2 = es ∧ s6 = r := by
              injection h with h
              injection h with ha hb
              injection hb with hb hc
              exact ⟨ha, hb, hc⟩
            rw [← hr]
            calc s6 <:+ s5 := styAfterClose_suffix h5
              _ <:+ s4.dropWhile isPySpaceChar := (styDigits_suffix h4).1
              _ <:+ s4 := List.dropWhile_suffix isPySpaceChar
              _ <:+ s3 := styAfterDash_suffix h3
              _ <:+ s2 := (styDigits_suffix h2).1
              _ <:+ s := styAfterOpen_suffix h1

theorem styTryFilename_decomp {after fn ds es rest : List Char} :
    ∀ n, styTryFilename after n = some (fn, ds, es, rest) →
      ∃ mid, after = fn ++ (mid ++ rest) ∧ rest.length ≤ after.length := by
  intro n
  induction n with
  | zero => intro h; simp [styTryFilename] at h
  | succ n ih =>
    intro h
    rw [styTryFilename] at h
    split at h
    · rename_i p ds2 es2 rest2 ht
      obtain ⟨h1, hds, hes, hrest⟩ :
          after.take (n + 1) = fn ∧ ds2 = ds ∧ es2 = es ∧ rest2 = rest := by
        injection h with h
        injection h with ha hb
        injection hb with hb hc
        injection hc with hc hd
        exact ⟨ha, hb, hc, hd⟩
      rw [← hrest, ← h1]
      have hsuf : rest2 <:+ after.drop (n + 1) := styMatchTail_suffix ht
      obtain ⟨mid, hmid⟩ := hsuf
      refine ⟨mid, ?_, ?_⟩
      · rw [hmid, List.take_append_drop]
      · calc rest2.length ≤ (after.drop (n + 1)).length :=
              List.IsSuffix.length_le ⟨mid, hmid⟩
          _ ≤ after.length := by simp
    · rename_i ht
      exact ih h

theorem styMatchAt_decomp {s fn ds es rest : List Char}
    (h : styMatchAt s = some (fn, ds, es, rest)) :
    ∃ mid, s = '@' :: (fn ++ (mid ++ rest)) ∧ rest.length < s.length := by
  unfold styMatchAt at h
  split at h
  · rename_i after
    obtain ⟨mid, hmid, hlen⟩ := styTryFilename_decomp _ h
    refine ⟨mid, by rw [← hmid], ?_⟩
    simp only [List.length_cons]
    omega
  · exact absurd h (by simp)

theorem stySubAllF_fuel :
    ∀ f1 f2 s, s.length ≤ f1 → s.length ≤ f2 → stySubAllF f1 s = stySubAllF f2 s := by
  intro f1
  induction f1 with
  | zero =>
    intro f2 s h1 _
    have hs : s = [] := List.length_eq_zero.mp (Nat.le_zero.mp h1)
    subst hs
    cases f2 <;> simp [stySubAllF]
  | succ f1 ih =>
    intro f2 s h1 h2
    cases s with
    | nil => cases f2 <;> simp [stySubAllF]
    | cons c cs =>
      cases f2 with
      | zero => simp at h2
      | succ f2 =>
        rw [stySubAllF, stySubAllF]
        cases hm : styMatchAt (c :: cs) with
        | none =>
          show c :: stySubAllF f1 cs = c :: stySubAllF f2 cs
          rw [ih f2 cs (by simpa using h1) (by simpa using h2)]
        | some r =>
          obtain ⟨fn, ds, es, rest⟩ := r
          show stySubAllF f1 rest = stySubAllF f2 rest
          obtain ⟨_, _, hlen⟩ := styMatchAt_decomp hm
          have hr1 : rest.length ≤ f1 := by simp at hlen h1; omega
          have hr2 : rest.length ≤ f2 := by simp at hlen h2; omega
          exact ih f2 rest hr1 hr2

/-- The leftmost-match decomposition: `re.sub` deletes the found match and
continues scanning only in the remainder. -/
theorem stySearchFull_decomp :
    ∀ s pre fn ds es rest, stySearchFull s = some (pre, fn, ds, es, rest) →
      (∃ mid, s = pre ++ ('@' :: (fn ++ (mid ++ rest)))) ∧
        stySubAll s = pre ++ stySubAll rest := by
  intro s
  induction s with
  | nil => intro pre fn ds es rest h; simp [stySearchFull] at h
  | cons c cs ih =>
    intro pre fn ds es rest h
    rw [stySearchFull] at h
    cases hm : styMatchAt (c :: cs) with
    | some r =>
      obtain ⟨fn0, ds0, es0, rest0⟩ := r
      rw [hm] at h
      obtain ⟨hpre, hfn, hds, hes, hrest⟩ :
          ([] : List Char) = pre ∧ fn0 = fn ∧ ds0 = ds ∧ es0 = es ∧ rest0 = rest := by
        injection h with h
        injection h with h1 h
        injection h with h2 h
        injection h with h3 h
        injection h with h4 h5
        exact ⟨h1, h2, h3, h4, h5⟩
      rw [← hpre, ← hfn, ← hrest]
      obtain ⟨mid, hmid, hlen⟩ := styMatchAt_decomp hm
      refine ⟨⟨mid, by simpa using hmid⟩, ?_⟩
      show stySubAllF (c :: cs).length (c :: cs) = [] ++ stySubAll rest0
      rw [List.length_cons, stySubAllF, hm, List.nil_append]
      exact stySubAllF_fuel cs.length rest0.length rest0 (by simp at hlen; omega) le_rfl
    | none =>
      rw [hm] at h
      cases hs : stySearchFull cs with
      | none => rw [hs] at h; exact absurd h (by simp)
      | some r2 =>
        obtain ⟨pre2, fn2, ds2, es2, rest2⟩ := r2
        rw [hs] at h
        obtain ⟨hpre, hfn, hds, hes, hrest⟩ :
            c :: pre2 = pre ∧ fn2 = fn ∧ ds2 = ds ∧ es2 = es ∧ rest2 = rest := by
          injection h with h
          injection h with h1 h
          injection h with h2 h
          injection h with h3 h
          injection h with h4 h5
          exact ⟨h1, h2, h3, h4, h5⟩
        rw [← hpre, ← hfn, ← hrest]
        obtain ⟨⟨mid, hmid⟩, hsub⟩ := ih pre2 fn2 ds2 es2 rest2 hs
        refine ⟨⟨mid, by rw [List.cons_append, ← hmid]⟩, ?_⟩
        show stySubAllF (c :: cs).length (c :: cs) = (c :: pre2) ++ stySubAll rest2
        rw [List.length_cons, stySubAllF, hm]
        rw [List.cons_append]
        rw [← hsub]
        rfl

/-! ## `extract_style_reference` / `strip_style_reference` -/

structure StyleReference where
  style_file : String
  style_range : String
  style_hint : String
  deriving DecidableEq

/-- `extract_style_reference(task)`: the first style-reference annotation in
the task, as `{style_file, style_range, style_hint}` (`none` models the
empty dict). -/
def extract_style_reference (task : String) : Option StyleReference :=
  match stySearchFull task.data with
  | some (_, fn, ds, es, _) =>
    some ⟨String.mk fn, String.mk (ds ++ '-' :: es), "example_review"⟩
  | none => none

/-- `strip_style_reference(task)`: delete every style-reference annotation,
then strip surrounding whitespace. -/
def strip_style_reference (task : String) : String :=
  String.mk (pystrip (stySubAll task.data))

/-! ## The numeric-metric pattern

`\b\d+[\d,.]*(?:%|만원|원|g|kg|mm|cm|mAh|시간|nit|Hz|GB|TB|inch|인치)?\b`
counted with `re.findall`.  Only the `[\d,.]*` run and the unit alternation
need explicit backtracking; `\d+` and the `\s*`-free pieces are exact
maximal munch because their follow-sets are disjoint. -/

/-- Python's `\w` restricted to the character ranges that occur in this
file's data: ASCII alphanumerics, underscore, and Hangul syllables. -/
def isWordChar (c : Char) : Bool :=
  c.isAlphanum || c = '_' || (0xAC00 ≤ c.toNat && c.toNat ≤ 0xD7A3)

def wordOpt : Option Char → Bool
  | none => false
  | some c => isWordChar c

/-- `\b` between a left and a right context character (`none` = text edge). -/
def isBoundary (a b : Option Char) : Bool := wordOpt a != wordOpt b

/-- `[\d,.]` -/
def isRunChar (c : Char) : Bool := c.isDigit || c = ',' || c = '.'

/-- The unit alternatives, in the pattern's order. -/
def metricUnits : List (List Char) :=
  ["%", "만원", "원", "g", "kg", "mm", "cm", "mAh", "시간", "nit", "Hz",
    "GB", "TB", "inch", "인치"].map String.data

/-- Try the unit alternation followed by `\b`; on failure of all
alternatives, the empty unit followed by `\b`.  `prevc` is the character
just before `rest`.  Returns (last matched character, rest). -/
def tryUnitsGo (prevc : Char) (rest : List Char) :
    List (List Char) → Option (Char × List Char)
  | [] => if isBoundary (some prevc) rest.head? then some (prevc, rest) else none
  | u :: us =>
    if u.isPrefixOf rest then
      match u.getLast? with
      | some lastu =>
        if isBoundary (some lastu) (rest.drop u.length).head? then
          some (lastu, rest.drop u.length)
        else tryUnitsGo prevc rest us
      | none => tryUnitsGo prevc rest us
    else tryUnitsGo prevc rest us

/-- Backtrack over the greedy `[\d,.]*` run: try consuming `k` run
characters of `s2`, largest `k` first.  `lastDigit` is the final character
of the mandatory `\d+` group. -/
def tryRunLens (lastDigit : Char) (s2 : List Char) : Nat → Option (Char × List Char)
  | 0 => tryUnitsGo lastDigit s2 metricUnits
  | k + 1 =>
    match tryUnitsGo ((s2.take (k + 1)).getLastD lastDigit) (s2.drop (k + 1)) metricUnits with
    | some r => some r
    | none => tryRunLens lastDigit s2 k

/-- Try to match the numeric-metric pattern at the current position; `prev`
is the character before `s`.  Returns (last matched character, rest). -/
def numMatchAt (prev : Option Char) (s : List Char) : Option (Char × List Char) :=
  let ds := s.takeWhile Char.isDigit
  if ds.isEmpty then none
  else if !isBoundary prev s.head? then none
  else
    let s2 := s.drop ds.length
    tryRunLens (ds.getLastD '0') s2 ((s2.takeWhile isRunChar).length)

/-- `re.findall` count: scan left to right, restarting after each match. -/
def countNumMatches : Nat → Option Char → List Char → Nat
  | 0, _, _ => 0
  | _ + 1, _, [] => 0
  | fuel + 1, prev, c :: cs =>
    match numMatchAt prev (c :: cs) with
    | some (lastc, rest) => 1 + countNumMatches fuel (some lastc) rest
    | none => countNumMatches fuel (some c) cs

/-- `count_numeric_metrics(text)`. -/
def count_numeric_metrics (text : String) : Nat :=
  countNumMatches text.data.length none text.data

/-! ## `passes_quality_gates` -/

/-- The generation-time quality gate: length, numeric density, and the
required section headings. -/
def passes_quality_gates (content : String) : Bool :=
  decide (1200 ≤ content.length) &&
  decide (3 ≤ count_numeric_metrics content) &&
  strContains content.data "### 장점".data &&
  strContains content.data "### 단점".data &&
  strContains content.data "### 경쟁 제품 비교".data &&
  (strContains content.data "### 가격".data ||
    strContains content.data "가격 및 구매 팁".data) &&
  strContains content.data "### FAQ".data

/-! ## `slugify` -/

/-- `re.sub(cls+, repl, s)` for a character class `p`: replace each maximal
run of class characters by `repl` (deleting it when `repl = []`). -/
def subRunsF (p : Char → Bool) (repl : List Char) : Nat → List Char → List Char
  | 0, s => s
  | _ + 1, [] => []
  | fuel + 1, c :: cs =>
    if p c then repl ++ subRunsF p repl fuel (cs.dropWhile p)
    else c :: subRunsF p repl fuel cs

def subRuns (p : Char → Bool) (repl : List Char) (s : List Char) : List Char :=
  subRunsF p repl s.length s

/-- Characters allowed through the `[^a-z0-9\-]+ → ""` filter. -/
def isSlugChar (c : Char) : Bool := isLowerAlpha c || c.isDigit || c = '-'

/-- `slugify(text)`: lowercase + strip, whitespace and `/` runs to `-`,
drop everything outside `[a-z0-9-]`, collapse `-` runs, strip `-`,
with fallback `"post"`. -/
def slugify (text : String) : String :=
  let safe1 := pystrip (text.data.map pyCharLower)
  let safe2 := subRuns (fun c => isPySpaceChar c || c = '/') ['-'] safe1
  let safe3 := subRuns (fun c => !isSlugChar c) [] safe2
  let safe4 := trimBoth (fun c => c = '-') (subRuns (fun c => c = '-') ['-'] safe3)
  if safe4 = [] then "post" else String.mk safe4

/-! ## `estimate_rating_from_content`

Python floats are modelled by exact rationals; the grid of possible values
(`4.2 + k * 0.05`, `k ∈ [-10, 10]`, rounded to one decimal) is reproduced
exactly, with `round`'s banker's rounding. -/

/-- `re.findall(r"^[-*]\s", content, re.MULTILINE)` count: a scan tracking
whether the position is at a line start. -/
def countBulletMatchesF : Nat → Bool → List Char → Nat
  | 0, _, _ => 0
  | _ + 1, _, [] => 0
  | fuel + 1, atStart, c :: cs =>
    if atStart && (c = '-' || c = '*') then
      match cs with
      | [] => 0
      | d :: ds =>
        if isPySpaceChar d then 1 + countBulletMatchesF fuel (d = '\n') ds
        else countBulletMatchesF fuel (c = '\n') cs
    else countBulletMatchesF fuel (c = '\n') cs

def countBulletMatches (s : List Char) : Nat := countBulletMatchesF s.length true s

/-- Round to the nearest integer, ties to even (Python `round`). -/
def roundHalfToEven (q : ℚ) : ℤ :=
  let f := ⌊q⌋
  if q - f < 1 / 2 then f
  else if 1 / 2 < q - f then f + 1
  else if f % 2 = 0 then f else f + 1

/-- Python `round(q, 1)`. -/
def pyRound1 (q : ℚ) : ℚ := (roundHalfToEven (q * 10) : ℚ) / 10

/-- `estimate_rating_from_content(content)`: base 4.2 adjusted by
`(bullet lines − mentions of "단점") * 0.05`, clamped to ±0.5, rounded to
one decimal. -/
def estimate_rating_from_content (content : String) : ℚ :=
  let pros : ℤ := countBulletMatches content.data
  let cons : ℤ := pyCountOccur "단점".data (content.data.map pyCharLower)
  let base : ℚ := 42 / 10
  let adj : ℚ := min (1 / 2 : ℚ) (max (-(1 / 2) : ℚ) (((pros - cons : ℤ) : ℚ) * (5 / 100)))
  pyRound1 (base + adj)

/-! ## The review ledger (`generated_reviews.json`) -/

/-- One record of the ledger file. -/
structure ReviewRecord where
  product_name : String
  filename : String
  created_at : String
  timestamp : ℚ
  deriving DecidableEq

/-- The observable states of the ledger file for `load_generated_reviews`:
absent, unreadable (`open` raises), syntactically invalid JSON
(`json.load` raises), or valid JSON parsing to a list of records. -/
inductive LedgerFile where
  | missing
  | unreadable
  | invalidJson
  | parsed (reviews : List ReviewRecord)
  deriving DecidableEq

/-- `load_generated_reviews()`: any raised exception is caught and logged,
and the function falls through to `[]`. -/
def load_generated_reviews : LedgerFile → List ReviewRecord
  | .missing => []
  | .unreadable => []
  | .invalidJson => []
  | .parsed reviews => reviews

/-- `product_name.lower().strip()`. -/
def normName (name : String) : List Char := pystrip (name.data.map pyCharLower)

/-- `is_product_already_reviewed(product_name)`: case-insensitive
bidirectional substring match against every ledger record. -/
def is_product_already_reviewed (ledger : LedgerFile) (product_name : String) : Bool :=
  let reviews := load_generated_reviews ledger
  let normalized_product := normName product_name
  reviews.any fun review =>
    let existing_product := normName review.product_name
    strContains existing_product normalized_product ||
      strContains normalized_product existing_product

/-! ## Pipeline state -/

structure SourceInfo where
  title : String := ""
  url : String := ""
  body : String := ""
  deriving DecidableEq

structure SearchResults where
  basic_info : List SourceInfo := []
  deriving DecidableEq

/-- The `current_post` dict; absent keys are modelled by the defaults used
by the corresponding `.get` calls. -/
structure CurrentPost where
  type_ : String := ""
  status : String := ""
  content : String := ""
  created_at : String := ""
  needs_revision : Bool := false
  filename : Option String := none
  markdown : String := ""
  deriving DecidableEq

/-- The environment flags read through `os.getenv(...) == "1"`. -/
structure Env where
  force_regenerate : Bool := false
  disable_llm : Bool := false
  disable_web_search : Bool := false
  deriving DecidableEq

/-- The `BlogState` TypedDict (the fields the embedded stages touch).
`revision_count` is read through `state.get("revision_count", 0)`, hence
the default 0; `product_slug` through `state.get("product_slug", ...)`. -/
structure BlogState where
  task : String := ""
  product_name : String := ""
  search_results : SearchResults := {}
  current_post : CurrentPost := {}
  feedback : String := ""
  completed : Bool := false
  product_slug : Option String := none
  style_reference : Option StyleReference := none
  revision_count : Nat := 0
  deriving DecidableEq

/-! ## `analyze_task` -/

/-- The keyword list, including the in-function extensions, in scan order. -/
def product_keywords : List String :=
  ["에어팟", "갤럭시", "아이폰", "맥북", "애플워치", "다이슨", "LG", "삼성",
    "로지텍", "로지텍 MX", "MX", "마스터"]

/-- First index `i` with `keyword in words[i]` (the inner `for`/`break`). -/
def find_kw_idx (k : List Char) : List (List Char) → Option Nat
  | [] => none
  | w :: ws => if strContains w k then some 0 else (find_kw_idx k ws).map (· + 1)

/-- `words[max(0, i-1) : min(len(words), i+3)]`. -/
def windowAt (words : List (List Char)) (i : Nat) : List (List Char) :=
  let start := i - 1
  let stop := min words.length (i + 3)
  (words.drop start).take (stop - start)

/-- The keyword loop of `analyze_task`: first keyword found as a substring
of the task whose surrounding word window is nonempty wins. -/
def keyword_search (tfp : List Char) (words : List (List Char)) :
    List (List Char) → List Char
  | [] => []
  | k :: rest =>
    if strContains tfp k then
      match find_kw_idx k words with
      | some i =>
        let p := joinSpace (windowAt words i)
        if p = [] then keyword_search tfp words rest else p
      | none => keyword_search tfp words rest
    else keyword_search tfp words rest

def extract_by_keywords (task_for_product : String) : String :=
  String.mk (keyword_search task_for_product.data (pysplit task_for_product.data)
    (product_keywords.map String.data))

/-- Product-name extraction of `analyze_task`: keyword window, else the
whole stripped task with "리뷰" and "작성" removed. -/
def analyze_product_name (task : String) : String :=
  let task_for_product := strip_style_reference task
  let p := extract_by_keywords task_for_product
  if p = "" then
    String.mk (pystrip (pyRemoveAll
      (pyRemoveAll task_for_product.data "리뷰".data) "작성".data))
  else p

/-- The `analyze` node.  Sets the style reference (when present), product
name and slug, resets `current_post`, and short-circuits to the terminal
`duplicate` state unless `FORCE_REGENERATE` is set. -/
def analyze_task (env : Env) (ledger : LedgerFile) (s : BlogState) : BlogState :=
  let task := s.task
  let s1 :=
    match extract_style_reference task with
    | some r => { s with style_reference := some r }
    | none => s
  let product_name := analyze_product_name task
  let s2 := { s1 with
    product_name := product_name,
    product_slug := some (slugify product_name),
    current_post := { type_ := "review", status := "analyzing" } }
  if env.force_regenerate = false ∧ is_product_already_reviewed ledger product_name then
    { s2 with
      current_post := { s2.current_post with status := "duplicate" },
      completed := true }
  else s2

/-- The conditional edge after `analyze`. -/
def should_continue_after_analyze (s : BlogState) : String :=
  if s.current_post.status = "duplicate" then "end" else "research"

/-! ## `generate_content` (the task text placed into the prompt) -/

/-- The `cleaned_task` computed by `generate_content`: the stripped task,
or a default request when it is empty. -/
def generate_cleaned_task (task : String) (product_name : String) : String :=
  let cleaned := strip_style_reference task
  if cleaned = "" then product_name ++ "에 대한 리뷰를 작성해 주세요." else cleaned

/-! ## `review_content` and `should_revise` -/

/-- `", ".join(xs)`. -/
def joinCommaSpace : List String → String
  | [] => ""
  | [x] => x
  | x :: xs => x ++ ", " ++ joinCommaSpace xs

def max_revisions : Nat := 2

/-- The review checklist, as the ordered `checks` dict (name, passed). -/
def review_checks (env : Env) (content : String) (basic_count : Nat)
    (revision_count : Nat) : List (String × Bool) :=
  let min_length : Nat := if env.disable_llm then 600 else 1200
  [("length", decide (min_length ≤ content.length)),
   ("numbers", decide (3 ≤ count_numeric_metrics content)),
   ("has_pros", strContains content.data "### 장점".data),
   ("has_cons", strContains content.data "### 단점".data),
   ("has_compare", strContains content.data "### 경쟁 제품 비교".data),
   ("has_price", strContains content.data "### 가격".data ||
      strContains content.data "가격 및 구매 팁".data),
   ("has_faq", strContains content.data "### FAQ".data)]
  ++ [("sources_used",
        if basic_count = 0 ∧ max_revisions ≤ revision_count then true
        else if env.disable_web_search then true else decide (0 < basic_count))]

/-- The `review` node: below the retry ceiling, a failed check requests a
revision and increments the counter; otherwise the pipeline proceeds. -/
def review_content (env : Env) (s : BlogState) : BlogState :=
  let content := s.current_post.content
  let revision_count := s.revision_count
  let checks := review_checks env content s.search_results.basic_info.length revision_count
  let failed_checks := (checks.filter fun pr => !pr.2).map Prod.fst
  if failed_checks ≠ [] ∧ revision_count < max_revisions then
    { s with
      feedback := "개선 필요: " ++ joinCommaSpace failed_checks,
      current_post := { s.current_post with needs_revision := true },
      revision_count := revision_count + 1 }
  else
    { s with
      feedback :=
        if max_revisions ≤ revision_count then
          "최대 재시도 횟수(2) 도달 - 현재 상태로 진행"
        else "검토 통과 - 품질 기준 충족",
      current_post := { s.current_post with needs_revision := false } }

/-- The conditional edge after `review`. -/
def should_revise (s : BlogState) : String :=
  if s.current_post.needs_revision then "revise" else "continue"

/-! ## `create_markdown`: section splitting and image interleaving -/

/-- `content.split("\n")`. -/
def splitOnNL : List Char → List (List Char)
  | [] => [[]]
  | c :: cs =>
    if c = '\n' then [] :: splitOnNL cs
    else
      match splitOnNL cs with
      | [] => [[c]]
      | w :: ws => (c :: w) :: ws

/-- The line loop of `split_content_into_sections`: close the current
buffer at a `### ` heading when the buffer has non-whitespace content. -/
def splitSectionsGo : List (List Char) → List Char → List (List Char)
  | [], current => if pystrip current ≠ [] then [pystrip current] else []
  | line :: rest, current =>
    if "### ".data.isPrefixOf line ∧ pystrip current ≠ [] then
      pystrip current :: splitSectionsGo rest (line ++ ['\n'])
    else splitSectionsGo rest (current ++ line ++ ['\n'])

def split_content_into_sections (content : String) : List String :=
  (splitSectionsGo (splitOnNL content.data) []).map String.mk

/-- A record of `download_and_prepare_images`' output. -/
structure LocalImage where
  path : String := ""
  alt : String := ""
  width : Nat := 0
  height : Nat := 0
  deriving DecidableEq

/-- The markdown block inserted for one local image. -/
def image_markdown (img : LocalImage) : String :=
  "\n![" ++ img.alt ++ "](" ++ img.path ++ ")\n"

/-- `"\n".join` over a list of strings. -/
def joinCharsNL : List (List Char) → List Char
  | [] => []
  | [x] => x
  | x :: xs => x ++ '\n' :: joinCharsNL xs

def joinNL (l : List String) : String := String.mk (joinCharsNL (l.map String.data))

/-- The `for i in range(1, len(sections))` loop of
`insert_local_images_between_sections`, building the `result` list:
`i` is the section index, `used` the images consumed so far. -/
def insertImagesGo (local_images : List LocalImage) (max_images : Nat) :
    Nat → Nat → List String → List String
  | _, _, [] => []
  | i, used, sec :: rest =>
    if used < max_images ∧ i ≤ max_images then
      match local_images[used]? with
      | some img =>
        image_markdown img :: sec :: insertImagesGo local_images max_images (i + 1) (used + 1) rest
      | none => sec :: insertImagesGo local_images max_images (i + 1) used rest
    else sec :: insertImagesGo local_images max_images (i + 1) used rest

/-- `insert_local_images_between_sections(sections, local_images)`. -/
def insert_local_images_between_sections (sections : List String)
    (local_images : List LocalImage) : String :=
  if local_images.isEmpty then joinNL sections
  else
    match sections with
    | [] => joinNL []
    | s0 :: rest =>
      joinNL (s0 :: insertImagesGo local_images (min local_images.length 3) 1 0 rest)

/-! ## `save_post` and `add_review_record` -/

/-- The effects consumed by `save_post`: the outcome of the file write
(an `error` models a raised exception), `datetime.now()`, and the short
id cut from `uuid.uuid4()`. -/
structure SaveEnv where
  write_result : Except String Unit := .ok ()
  now_iso : String := ""
  now_timestamp : ℚ := 0
  shortid : String := ""

/-- `add_review_record(product_name, filename)`: append one record to the
loaded ledger (the result is what gets written back). -/
def add_review_record (senv : SaveEnv) (ledger : LedgerFile)
    (product_name filename : String) : List ReviewRecord :=
  load_generated_reviews ledger ++
    [{ product_name := product_name, filename := filename,
       created_at := senv.now_iso, timestamp := senv.now_timestamp }]

/-- `review-<product-slug>-<shortid>.md`. -/
def save_filename (senv : SaveEnv) (s : BlogState) : String :=
  "review-" ++ (s.product_slug.getD (slugify s.product_name)) ++ "-" ++
    senv.shortid ++ ".md"

/-- The `save` node.  The file write is wrapped in `try/except`: whatever
`write_result` is, the exception is caught (and only logged), and the
state update and ledger append below always run. -/
def save_post (senv : SaveEnv) (ledger : LedgerFile) (s : BlogState) :
    BlogState × List ReviewRecord :=
  let filename := save_filename senv s
  let _written : Bool :=
    match senv.write_result with
    | .ok _ => true
    | .error _ => false
  let s1 := { s with
    current_post := { s.current_post with filename := some filename, status := "saved" },
    completed := true }
  (s1, add_review_record senv ledger s.product_name filename)

/-! # Helper lemmas about the pipeline stages -/

theorem analyze_task_product_name (env : Env) (ledger : LedgerFile) (s : BlogState) :
    (analyze_task env ledger s).product_name = analyze_product_name s.task := by
  unfold analyze_task
  cases extract_style_reference s.task <;> dsimp only <;> split <;> rfl

theorem analyze_task_style_reference (env : Env) (ledger : LedgerFile) (s : BlogState)
    (r : StyleReference) (h : extract_style_reference s.task = some r) :
    (analyze_task env ledger s).style_reference = some r := by
  unfold analyze_task
  dsimp only
  rw [h]
  dsimp only
  split <;> rfl

/-! ## Lemmas about `subRuns` and `slugify` -/

theorem subRunsF_mem (p : Char → Bool) (repl : List Char) :
    ∀ fuel l, l.length ≤ fuel →
      ∀ c ∈ subRunsF p repl fuel l, c ∈ repl ∨ (c ∈ l ∧ p c = false) := by
  intro fuel
  induction fuel with
  | zero =>
    intro l hf c hc
    have : l = [] := List.length_eq_zero.mp (Nat.le_zero.mp hf)
    subst this
    simp [subRunsF] at hc
  | succ fuel ih =>
    intro l hf c hc
    cases l with
    | nil => simp [subRunsF] at hc
    | cons x xs =>
      rw [subRunsF] at hc
      by_cases hx : p x = true
      · rw [if_pos hx] at hc
        rcases List.mem_append.mp hc with hc | hc
        · exact Or.inl hc
        · have hlen : (xs.dropWhile p).length ≤ fuel := by
            have := (List.dropWhile_sublist (l := xs) p).length_le
            simp at hf
            omega
          rcases ih _ hlen c hc with hc | ⟨hc1, hc2⟩
          · exact Or.inl hc
          · exact Or.inr ⟨List.mem_cons_of_mem _ ((List.dropWhile_sublist p).mem hc1), hc2⟩
      · rw [if_neg hx] at hc
        rcases List.mem_cons.mp hc with rfl | hc
        · exact Or.inr ⟨List.mem_cons_self _ _, by simpa using hx⟩
        · rcases ih xs (by simp at hf; omega) c hc with hc | ⟨hc1, hc2⟩
          · exact Or.inl hc
          · exact Or.inr ⟨List.mem_cons_of_mem _ hc1, hc2⟩

theorem subRunsF_head (p : Char → Bool) (fuel : Nat) (l : List Char)
    (hl : ∀ x, l.head? = some x → p x = false) :
    ∀ x, (subRunsF p ['-'] fuel l).head? = some x → p x = false := by
  intro x hx
  cases fuel with
  | zero =>
    rw [subRunsF] at hx
    exact hl x hx
  | succ fuel =>
    cases l with
    | nil => simp [subRunsF] at hx
    | cons c cs =>
      have hc : p c = false := hl c rfl
      rw [subRunsF, if_neg (by simp [hc])] at hx
      injection hx with hx
      rw [← hx]
      exact hc

/-- Collapsing runs of `p`-characters to a single `'-'` leaves no two
adjacent characters that both satisfy `p` (taking `p '-' = true`). -/
theorem subRunsF_chain (p : Char → Bool) :
    ∀ fuel l, l.length ≤ fuel →
      List.Chain' (fun a b => ¬(p a = true ∧ p b = true)) (subRunsF p ['-'] fuel l) := by
  intro fuel
  induction fuel with
  | zero =>
    intro l hf
    have : l = [] := List.length_eq_zero.mp (Nat.le_zero.mp hf)
    subst this
    simp [subRunsF]
  | succ fuel ih =>
    intro l hf
    cases l with
    | nil => simp [subRunsF]
    | cons x xs =>
      rw [subRunsF]
      by_cases hx : p x = true
      · rw [if_pos hx]
        have hlen : (xs.dropWhile p).length ≤ fuel := by
          have := (List.dropWhile_sublist (l := xs) p).length_le
          simp at hf
          omega
        rw [List.singleton_append, List.chain'_cons']
        refine ⟨?_, ih _ hlen⟩
        intro y hy
        have hy2 : p y = false :=
          subRunsF_head p fuel (xs.dropWhile p)
            (fun z hz => dropWhile_head?_not p xs z hz) y (by simpa using hy)
        intro hcon
        rw [hy2] at hcon
        exact Bool.false_ne_true hcon.2
      · rw [if_neg hx]
        rw [List.chain'_cons']
        refine ⟨?_, ih xs (by simp at hf; omega)⟩
        intro y _
        intro hcon
        exact hx hcon.1

/-- C9 supporting fact: a character of `slugify`'s pre-fallback result is a
lowercase letter, a digit, or a hyphen. -/
theorem slugify_output_chars (text : String) :
    ∀ c ∈ (slugify text).data, isSlugChar c = true := by
  intro c hc
  unfold slugify at hc
  dsimp only at hc
  split at hc
  · rename_i hnil
    simp at hc
    rcases hc with rfl | rfl | rfl | rfl <;> decide
  · rename_i hnil
    simp only [String.mk] at hc
    have h4 := mem_trimBoth _ _ _ hc
    have h5 := subRunsF_mem (fun c => c = '-') ['-'] _ _ le_rfl c h4
    rcases h5 with h5 | ⟨h5, _⟩
    · simp at h5
      simp [isSlugChar, h5]
    · have h6 := subRunsF_mem (fun c => !isSlugChar c) [] _ _ le_rfl c h5
      rcases h6 with h6 | ⟨_, h6⟩
      · simp at h6
      · simpa using h6

/-! ## Lemmas about section splitting and image interleaving -/

/-- Observer separating inserted image blocks (which always start with a
newline) from section texts (which are stripped, so they never do). -/
def startsWithNewline (s : String) : Bool :=
  match s.data with
  | c :: _ => c = '\n'
  | [] => false

theorem splitSectionsGo_mem :
    ∀ lines current w, w ∈ splitSectionsGo lines current →
      ∃ y, w = pystrip y ∧ pystrip y ≠ [] := by
  intro lines
  induction lines with
  | nil =>
    intro current w hw
    unfold splitSectionsGo at hw
    split at hw
    · rename_i hne
      rcases List.mem_singleton.mp hw with rfl
      exact ⟨current, rfl, hne⟩
    · simp at hw
  | cons line rest ih =>
    intro current w hw
    unfold splitSectionsGo at hw
    split at hw
    · rename_i hcond
      rcases List.mem_cons.mp hw with rfl | hw
      · exact ⟨current, rfl, hcond.2⟩
      · exact ih _ w hw
    · exact ih _ w hw

theorem split_sections_not_newline (content : String) :
    ∀ x ∈ split_content_into_sections content, startsWithNewline x = false := by
  intro x hx
  unfold split_content_into_sections at hx
  obtain ⟨w, hw, rfl⟩ := List.mem_map.mp hx
  obtain ⟨y, rfl, hne⟩ := splitSectionsGo_mem _ _ w hw
  cases hy : pystrip y with
  | nil => exact absurd hy hne
  | cons c t =>
    have hc : isPySpaceChar c = false := by
      apply trimBoth_head isPySpaceChar y
      rw [show pystrip y = trimBoth isPySpaceChar y from rfl] at hy
      rw [hy]
      rfl
    have hcn : c ≠ '\n' := by
      intro hcn
      rw [hcn] at hc
      simp [isPySpaceChar] at hc
    simp [startsWithNewline, hcn]

theorem image_markdown_newline (img : LocalImage) :
    startsWithNewline (image_markdown img) = true := rfl

theorem insertImagesGo_filter (imgs : List LocalImage) (m : Nat) :
    ∀ rest i used, (∀ x ∈ rest, startsWithNewline x = false) →
      (insertImagesGo imgs m i used rest).filter (fun x => !startsWithNewline x) = rest ∧
      ∀ x ∈ insertImagesGo imgs m i used rest, startsWithNewline x = true →
        ∃ img ∈ imgs, x = image_markdown img := by
  intro rest
  induction rest with
  | nil => intro i used _; simp [insertImagesGo]
  | cons sec rest2 ih =>
    intro i used hsec
    have hsec0 : startsWithNewline sec = false := hsec sec (by simp)
    have hsecr : ∀ x ∈ rest2, startsWithNewline x = false :=
      fun x hx => hsec x (by simp [hx])
    unfold insertImagesGo
    split
    · cases hget : imgs[used]? with
      | some img =>
        have himg : img ∈ imgs := by
          obtain ⟨hlt, hval⟩ := List.getElem?_eq_some_iff.mp hget
          rw [← hval]
          exact List.getElem_mem hlt
        obtain ⟨ihf, ihm⟩ := ih (i + 1) (used + 1) hsecr
        constructor
        · simp [List.filter_cons, image_markdown_newline, hsec0, ihf]
        · intro x hx hnl
          rcases List.mem_cons.mp hx with rfl | hx
          · exact ⟨img, himg, rfl⟩
          · rcases List.mem_cons.mp hx with rfl | hx
            · rw [hnl] at hsec0; exact absurd hsec0 (by simp)
            · exact ihm x hx hnl
      | none =>
        obtain ⟨ihf, ihm⟩ := ih (i + 1) used hsecr
        constructor
        · simp [List.filter_cons, hsec0, ihf]
        · intro x hx hnl
          rcases List.mem_cons.mp hx with rfl | hx
          · rw [hnl] at hsec0; exact absurd hsec0 (by simp)
          · exact ihm x hx hnl
    · obtain ⟨ihf, ihm⟩ := ih (i + 1) used hsecr
      constructor
      · simp [List.filter_cons, hsec0, ihf]
      · intro x hx hnl
        rcases List.mem_cons.mp hx with rfl | hx
        · rw [hnl] at hsec0; exact absurd hsec0 (by simp)
        · exact ihm x hx hnl

/-! ## Lemmas about keyword-based product-name extraction -/

theorem find_kw_idx_lt (k : List Char) :
    ∀ ws i, find_kw_idx k ws = some i → i < ws.length := by
  intro ws
  induction ws with
  | nil => intro i h; simp [find_kw_idx] at h
  | cons w ws2 ih =>
    intro i h
    unfold find_kw_idx at h
    split at h
    · injection h with h
      subst h
      simp
    · cases hf : find_kw_idx k ws2 with
      | none => rw [hf] at h; simp at h
      | some j =>
        rw [hf] at h
        injection h with h
        subst h
        have := ih j hf
        simp
        omega

theorem find_kw_idx_of_mem (k : List Char) :
    ∀ ws, (∃ w ∈ ws, strContains w k = true) → ∃ i, find_kw_idx k ws = some i := by
  intro ws
  induction ws with
  | nil => rintro ⟨w, hw, _⟩; simp at hw
  | cons w ws2 ih =>
    rintro ⟨w2, hw2, hc⟩
    unfold find_kw_idx
    by_cases hw : strContains w k = true
    · exact ⟨0, by rw [if_pos hw]⟩
    · rcases List.mem_cons.mp hw2 with rfl | hw2
      · exact absurd hc hw
      · obtain ⟨i, hi⟩ := ih ⟨w2, hw2, hc⟩
        exact ⟨i + 1, by rw [if_neg hw, hi]; rfl⟩

theorem windowAt_ne_nil (ws : List (List Char)) (i : Nat) (hi : i < ws.length) :
    windowAt ws i ≠ [] := by
  unfold windowAt
  dsimp only
  intro h
  have hlen := congrArg List.length h
  rw [List.length_take, List.length_drop] at hlen
  simp at hlen
  omega

theorem windowAt_len (ws : List (List Char)) (i : Nat) :
    (windowAt ws i).length ≤ 4 := by
  unfold windowAt
  dsimp only
  rw [List.length_take, List.length_drop]
  simp
  omega

theorem windowAt_mem (ws : List (List Char)) (i : Nat) :
    ∀ w ∈ windowAt ws i, w ∈ ws := by
  intro w hw
  unfold windowAt at hw
  exact ((List.take_sublist _ _).trans (List.drop_sublist _ _)).mem hw

/-- Whenever some keyword in the remaining list is nonempty,
whitespace-free, and contained in the task text, the keyword loop returns
a word window of the split task text. -/
theorem keyword_search_spec (tfp : List Char) :
    ∀ keys, (∃ k ∈ keys, k ≠ [] ∧ (∀ c ∈ k, isPySpaceChar c = false) ∧
        strContains tfp k = true) →
      ∃ i, i < (pysplit tfp).length ∧
        keyword_search tfp (pysplit tfp) keys = joinSpace (windowAt (pysplit tfp) i) := by
  intro keys
  induction keys with
  | nil => rintro ⟨k, hk, _⟩; simp at hk
  | cons k0 rest ih =>
    rintro ⟨k, hkmem, hkne, hksp, hkc⟩
    unfold keyword_search
    by_cases hc0 : strContains tfp k0 = true
    · rw [if_pos hc0]
      cases hf : find_kw_idx k0 (pysplit tfp) with
      | some i =>
        have hi := find_kw_idx_lt k0 _ i hf
        have hwne : joinSpace (windowAt (pysplit tfp) i) ≠ [] := by
          apply joinSpace_ne_nil _ (windowAt_ne_nil _ i hi)
          intro w hw
          exact (pysplit_words_good tfp w (windowAt_mem _ i w hw)).1
        dsimp only
        rw [if_neg hwne]
        exact ⟨i, hi, rfl⟩
      | none =>
        rcases List.mem_cons.mp hkmem with rfl | hkmem
        · exfalso
          obtain ⟨w, hw, hkw⟩ := infix_pysplit tfp k hkne hksp
            ((strContains_iff tfp k).mp hkc)
          obtain ⟨i, hi⟩ := find_kw_idx_of_mem k _
            ⟨w, hw, (strContains_iff w k).mpr hkw⟩
          rw [hf] at hi
          exact Option.noConfusion hi
        · exact ih ⟨k, hkmem, hkne, hksp, hkc⟩
    · rw [if_neg hc0]
      rcases List.mem_cons.mp hkmem with rfl | hkmem
      · exact absurd hkc hc0
      · exact ih ⟨k, hkmem, hkne, hksp, hkc⟩

/-- Reducing the C3 hypothesis to a usable witness: every keyword of the
list either is whitespace-free itself, or ("로지텍 MX") contains the later
whitespace-free keyword "MX". -/
theorem product_keyword_witness (tfp : List Char)
    (h : ∃ k ∈ product_keywords, strContains tfp k.data = true) :
    ∃ k ∈ product_keywords.map String.data,
      k ≠ [] ∧ (∀ c ∈ k, isPySpaceChar c = false) ∧ strContains tfp k = true := by
  obtain ⟨k, hkmem, hkc⟩ := h
  simp only [product_keywords, List.mem_cons, List.not_mem_nil, or_false] at hkmem
  have hMX : ∀ hc : strContains tfp "로지텍 MX".data = true,
      strContains tfp "MX".data = true := by
    intro hc
    have h1 : "MX".data <:+: "로지텍 MX".data := by
      refine ⟨"로지텍 ".data, [], ?_⟩
      rfl
    exact (strContains_iff _ _).mpr (h1.trans ((strContains_iff _ _).mp hc))
  rcases hkmem with rfl | rfl | rfl | rfl | rfl | rfl | rfl | rfl | rfl | rfl | rfl | rfl
  · exact ⟨"에어팟".data, by simp [product_keywords], by decide, by decide, hkc⟩
  · exact ⟨"갤럭시".data, by simp [product_keywords], by decide, by decide, hkc⟩
  · exact ⟨"아이폰".data, by simp [product_keywords], by decide, by decide, hkc⟩
  · exact ⟨"맥북".data, by simp [product_keywords], by decide, by decide, hkc⟩
  · exact ⟨"애플워치".data, by simp [product_keywords], by decide, by decide, hkc⟩
  · exact ⟨"다이슨".data, by simp [product_keywords], by decide, by decide, hkc⟩
  · exact ⟨"LG".data, by simp [product_keywords], by decide, by decide, hkc⟩
  · exact ⟨"삼성".data, by simp [product_keywords], by decide, by decide, hkc⟩
  · exact ⟨"로지텍".data, by simp [product_keywords], by decide, by decide, hkc⟩
  · exact ⟨"MX".data, by simp [product_keywords], by decide, by decide, hMX hkc⟩
  · exact ⟨"MX".data, by simp [product_keywords], by decide, by decide, hkc⟩
  · exact ⟨"마스터".data, by simp [product_keywords], by decide, by decide, hkc⟩

/-! ## Lemmas about the rating rounding -/

theorem roundHalfToEven_bounds (a b : ℤ) (q : ℚ) (h1 : (a : ℚ) ≤ q)
    (h2 : q ≤ (b : ℚ)) : a ≤ roundHalfToEven q ∧ roundHalfToEven q ≤ b := by
  have hfa : a ≤ ⌊q⌋ := Int.le_floor.mpr h1
  have hfq : (⌊q⌋ : ℚ) ≤ q := Int.floor_le q
  have hfb : ⌊q⌋ ≤ b := by
    have : (⌊q⌋ : ℚ) ≤ (b : ℚ) := hfq.trans h2
    exact_mod_cast this
  unfold roundHalfToEven
  dsimp only
  split
  · exact ⟨hfa, hfb⟩
  · rename_i hlt
    have hq : (⌊q⌋ : ℚ) + 1 / 2 ≤ q := by
      have : ¬(q - ⌊q⌋ < 1 / 2) := hlt
      push_neg at this
      linarith
    have hfb2 : ⌊q⌋ + 1 ≤ b := by
      have : (⌊q⌋ : ℚ) < (b : ℚ) := by linarith
      have := Int.cast_lt.mp this
      omega
    split
    · exact ⟨by omega, hfb2⟩
    · split
      · exact ⟨hfa, hfb⟩
      · exact ⟨by omega, hfb2⟩

theorem pyRound1_bounds (q : ℚ) (h1 : 37 / 10 ≤ q) (h2 : q ≤ 47 / 10) :
    37 / 10 ≤ pyRound1 q ∧ pyRound1 q ≤ 47 / 10 := by
  obtain ⟨ha, hb⟩ := roundHalfToEven_bounds 37 47 (q * 10)
    (by push_cast; linarith) (by push_cast; linarith)
  unfold pyRound1
  constructor
  · have h3 : (37 : ℚ) ≤ (roundHalfToEven (q * 10) : ℚ) := by exact_mod_cast ha
    linarith
  · have h3 : ((roundHalfToEven (q * 10) : ℚ)) ≤ 47 := by exact_mod_cast hb
    linarith

/-! # Claim theorems -/

/-- C3 counterexample: the claim as stated quantifies over the raw task
string, but extraction runs on the style-reference-stripped text.  The task
`"@맥북 (1-2)"` contains the recognized keyword `"맥북"`, yet stripping the
style annotation leaves the empty string, so `analyze` extracts the empty
product name — refuting "extracts a non-empty product name". -/
theorem keyword_extraction_counterexample :
    (∃ k ∈ product_keywords,
      strContains ("@맥북 (1-2)" : String).data k.data = true) ∧
    (analyze_task {} .missing { task := "@맥북 (1-2)" }).product_name = "" := by
  constructor
  · exact ⟨"맥북", by simp [product_keywords], by decide⟩
  · decide

/-- C3 (amended): for every task string whose style-reference-stripped text
contains a recognized product keyword, the analyze stage extracts a
non-empty product name whose word window has length at most 5 words (the
code's window is in fact at most 4 words). -/
theorem keyword_window_bound (env : Env) (ledger : LedgerFile) (s : BlogState)
    (h : ∃ k ∈ product_keywords,
      strContains (strip_style_reference s.task).data k.data = true) :
    (analyze_task env ledger s).product_name ≠ "" ∧
    (pysplit (analyze_task env ledger s).product_name.data).length ≤ 5 := by
  rw [analyze_task_product_name]
  set tfp := strip_style_reference s.task with htfp
  obtain ⟨k, hkmem, hkne, hksp, hkc⟩ := product_keyword_witness tfp.data h
  obtain ⟨i, hi, hks⟩ := keyword_search_spec tfp.data (product_keywords.map String.data)
    ⟨k, hkmem, hkne, hksp, hkc⟩
  have hgood : ∀ w ∈ windowAt (pysplit tfp.data) i,
      w ≠ [] ∧ ∀ c ∈ w, isPySpaceChar c = false :=
    fun w hw => pysplit_words_good _ w (windowAt_mem _ i w hw)
  have hjne : joinSpace (windowAt (pysplit tfp.data) i) ≠ [] :=
    joinSpace_ne_nil _ (windowAt_ne_nil _ i hi) (fun w hw => (hgood w hw).1)
  have hext : extract_by_keywords tfp =
      String.mk (joinSpace (windowAt (pysplit tfp.data) i)) := by
    unfold extract_by_keywords
    rw [hks]
  have hne : extract_by_keywords tfp ≠ "" := by
    rw [hext]
    intro hh
    exact hjne (by simpa using congrArg String.data hh)
  have hpn : analyze_product_name s.task = extract_by_keywords tfp := by
    unfold analyze_product_name
    dsimp only
    rw [← htfp, if_neg hne]
  constructor
  · rw [hpn]
    exact hne
  · rw [hpn, hext]
    have hsj : pysplit (joinSpace (windowAt (pysplit tfp.data) i)) =
        windowAt (pysplit tfp.data) i :=
      pysplit_joinSpace _ hgood
    rw [show (String.mk (joinSpace (windowAt (pysplit tfp.data) i))).data =
      joinSpace (windowAt (pysplit tfp.data) i) from rfl, hsj]
    exact (windowAt_len _ i).trans (by norm_num)

/-- C3 witness: on `"갤럭시 S24 울트라 리뷰 작성"` the stripped text
contains the keyword `"갤럭시"` and the extracted name is a non-empty
window of at most 5 words. -/
theorem keyword_window_bound_witness :
    (∃ k ∈ product_keywords,
      strContains (strip_style_reference "갤럭시 S24 울트라 리뷰 작성").data
        k.data = true) ∧
    (analyze_task {} .missing
      { task := "갤럭시 S24 울트라 리뷰 작성" }).product_name ≠ "" ∧
    (pysplit (analyze_task {} .missing
      { task := "갤럭시 S24 울트라 리뷰 작성" }).product_name.data).length ≤ 5 := by
  refine ⟨⟨"갤럭시", by simp [product_keywords], by decide⟩, ?_⟩
  exact keyword_window_bound {} .missing { task := "갤럭시 S24 울트라 리뷰 작성" }
    ⟨"갤럭시", by simp [product_keywords], by decide⟩

/-- C4: splitting content into sections on level-3 heading boundaries and
interleaving local-image blocks between sections (never before the first)
produces exactly the `"\n"`-join of a list in which every element is either
an original section, kept verbatim and in order with none dropped or
duplicated (removing the image blocks recovers the section list exactly),
or an inserted image block for one of the given images. -/
theorem sections_preserved_by_image_interleaving (content : String)
    (imgs : List LocalImage) :
    ∃ L : List String,
      insert_local_images_between_sections (split_content_into_sections content) imgs =
        joinNL L ∧
      L.filter (fun x => !startsWithNewline x) = split_content_into_sections content ∧
      (∀ x ∈ L, startsWithNewline x = true → ∃ img ∈ imgs, x = image_markdown img) := by
  set sections := split_content_into_sections content with hsecdef
  have hns : ∀ x ∈ sections, startsWithNewline x = false :=
    split_sections_not_newline content
  by_cases himg : imgs.isEmpty
  · refine ⟨sections, ?_, ?_, ?_⟩
    · unfold insert_local_images_between_sections
      rw [if_pos himg]
    · apply List.filter_eq_self.mpr
      intro a ha
      simp [hns a ha]
    · intro x hx hnl
      rw [hns x hx] at hnl
      exact absurd hnl (by simp)
  · cases hs : sections with
    | nil =>
      refine ⟨[], ?_, by simp, by simp⟩
      unfold insert_local_images_between_sections
      rw [if_neg himg]
    | cons s0 rest =>
      have hns2 : ∀ x ∈ s0 :: rest, startsWithNewline x = false := by
        rw [← hs]; exact hns
      have hns0 : startsWithNewline s0 = false := hns2 s0 (by simp)
      obtain ⟨ihf, ihm⟩ := insertImagesGo_filter imgs (min imgs.length 3) rest 1 0
        (fun x hx => hns2 x (by simp [hx]))
      refine ⟨s0 :: insertImagesGo imgs (min imgs.length 3) 1 0 rest, ?_, ?_, ?_⟩
      · unfold insert_local_images_between_sections
        rw [if_neg himg]
      · simp [List.filter_cons, hns0, ihf]
      · intro x hx hnl
        rcases List.mem_cons.mp hx with rfl | hx
        · rw [hnl] at hns0; exact absurd hns0 (by simp)
        · exact ihm x hx hnl

/-- C8: the computed rating equals `round(4.2 + adj, 1)` where `adj` is
`(bullet-line count − occurrences of "단점") * 0.05` clamped to
`[-0.5, +0.5]`; consequently the rating always lies in `[3.7, 4.7]`.
Floats are modelled by exact rationals (with round-half-to-even); the
claimed bounds hold under either binary-float or exact evaluation since
the clamp already confines the pre-rounding value to `[3.7, 4.7]`. -/
theorem estimate_rating_spec (content : String) :
    estimate_rating_from_content content =
      pyRound1 (42 / 10 + min (1 / 2 : ℚ) (max (-(1 / 2) : ℚ)
        ((((countBulletMatches content.data : ℤ) -
          (pyCountOccur "단점".data (content.data.map pyCharLower) : ℤ) : ℤ) : ℚ) *
            (5 / 100)))) ∧
    37 / 10 ≤ estimate_rating_from_content content ∧
    estimate_rating_from_content content ≤ 47 / 10 := by
  have heq : estimate_rating_from_content content =
      pyRound1 (42 / 10 + min (1 / 2 : ℚ) (max (-(1 / 2) : ℚ)
        ((((countBulletMatches content.data : ℤ) -
          (pyCountOccur "단점".data (content.data.map pyCharLower) : ℤ) : ℤ) : ℚ) *
            (5 / 100)))) := rfl
  set adj : ℚ := min (1 / 2 : ℚ) (max (-(1 / 2) : ℚ)
    ((((countBulletMatches content.data : ℤ) -
      (pyCountOccur "단점".data (content.data.map pyCharLower) : ℤ) : ℤ) : ℚ) *
        (5 / 100))) with hadj
  have hle : adj ≤ 1 / 2 := min_le_left _ _
  have hge : -(1 / 2) ≤ adj := le_min (by norm_num) (le_max_left _ _)
  obtain ⟨hb1, hb2⟩ := pyRound1_bounds (42 / 10 + adj) (by linarith) (by linarith)
  exact ⟨heq, heq ▸ hb1, heq ▸ hb2⟩

/-- C9: `slugify` always returns a non-empty string of lowercase ASCII
letters, digits and hyphens, with no leading, trailing, or repeated
hyphens; and an input without any ASCII alphanumeric character (e.g. a
purely Korean product name) yields the fixed fallback `"post"`. -/
theorem slugify_spec (text : String) :
    slugify text ≠ "" ∧
    (∀ c ∈ (slugify text).data, isSlugChar c = true) ∧
    (slugify text).data.head? ≠ some '-' ∧
    (slugify text).data.getLast? ≠ some '-' ∧
    List.Chain' (fun a b => ¬(a = '-' ∧ b = '-')) (slugify text).data ∧
    ((∀ c ∈ text.data, isAsciiAlnum c = false) → slugify text = "post") := by
  refine ⟨?_, slugify_output_chars text, ?_, ?_, ?_, ?_⟩
  · unfold slugify
    dsimp only
    split
    · decide
    · rename_i h4
      intro hemp
      exact h4 (by simpa using congrArg String.data hemp)
  · unfold slugify
    dsimp only
    split
    · decide
    · intro heq
      have := trimBoth_head (fun c => c = '-') _ '-' heq
      simp at this
  · unfold slugify
    dsimp only
    split
    · decide
    · intro heq
      have := trimBoth_last (fun c => c = '-') _ '-' heq
      simp at this
  · unfold slugify
    dsimp only
    split
    · rw [show ("post" : String).data = ['p', 'o', 's', 't'] from rfl]
      rw [List.chain'_cons, List.chain'_cons, List.chain'_cons]
      exact ⟨by decide, by decide, by decide, List.chain'_singleton 't'⟩
    · have hchain := subRunsF_chain (fun c => c = '-')
        (subRunsF (fun c => !isSlugChar c) []
          (subRunsF (fun c => isPySpaceChar c || c = '/') ['-']
            (pystrip (text.data.map pyCharLower)).length
            (pystrip (text.data.map pyCharLower))).length
          (subRunsF (fun c => isPySpaceChar c || c = '/') ['-']
            (pystrip (text.data.map pyCharLower)).length
            (pystrip (text.data.map pyCharLower)))).length _ le_rfl
      have hconv : List.Chain' (fun a b : Char => ¬(a = '-' ∧ b = '-')) _ :=
        hchain.imp (fun a b hab hcon => hab (by simp [hcon.1, hcon.2]))
      exact hconv.infix (trimBoth_infix_self _ _)
  · intro hno
    have h0 : ∀ c ∈ text.data.map pyCharLower, isAsciiAlnum c = false := by
      intro c hc
      obtain ⟨d, hd, rfl⟩ := List.mem_map.mp hc
      have hdno := hno d hd
      have : pyCharLower d = d := by
        unfold pyCharLower
        rw [if_neg]
        intro hup
        rw [isAsciiAlnum, hup] at hdno
        simp at hdno
      rw [this]
      exact hdno
    have h1 : ∀ c ∈ pystrip (text.data.map pyCharLower), isAsciiAlnum c = false :=
      fun c hc => h0 c (mem_trimBoth _ _ _ hc)
    have h2 : ∀ c ∈ subRuns (fun c => isPySpaceChar c || c = '/') ['-']
        (pystrip (text.data.map pyCharLower)),
        c = '-' ∨ isAsciiAlnum c = false := by
      intro c hc
      rcases subRunsF_mem _ _ _ _ le_rfl c hc with hc | ⟨hc, _⟩
      · exact Or.inl (by simpa using hc)
      · exact Or.inr (h1 c hc)
    have h3 : ∀ c ∈ subRuns (fun c => !isSlugChar c) []
        (subRuns (fun c => isPySpaceChar c || c = '/') ['-']
          (pystrip (text.data.map pyCharLower))),
        c = '-' := by
      intro c hc
      rcases subRunsF_mem _ _ _ _ le_rfl c hc with hc | ⟨hc1, hc2⟩
      · simp at hc
      · rcases h2 c hc1 with hc3 | hc3
        · exact hc3
        · have hslug : isSlugChar c = true := by
            cases hs : isSlugChar c
            · rw [hs] at hc2; simp at hc2
            · rfl
          simp only [isSlugChar, Bool.or_eq_true] at hslug
          simp only [isAsciiAlnum, Bool.or_eq_false_iff] at hc3
          rcases hslug with (h | h) | h
          · simp [hc3.1.1] at h
          · simp [hc3.2] at h
          · simpa using h
    have h4 : ∀ c ∈ subRuns (fun c => c = '-') ['-']
        (subRuns (fun c => !isSlugChar c) []
          (subRuns (fun c => isPySpaceChar c || c = '/') ['-']
            (pystrip (text.data.map pyCharLower)))),
        c = '-' := by
      intro c hc
      rcases subRunsF_mem _ _ _ _ le_rfl c hc with hc | ⟨hc, _⟩
      · simpa using hc
      · exact h3 c hc
    have h5 : trimBoth (fun c => c = '-')
        (subRuns (fun c => c = '-') ['-']
          (subRuns (fun c => !isSlugChar c) []
            (subRuns (fun c => isPySpaceChar c || c = '/') ['-']
              (pystrip (text.data.map pyCharLower))))) = [] := by
      apply trimBoth_eq_nil_of_all
      intro c hc
      simp [h4 c hc]
    unfold slugify
    dsimp only
    rw [if_pos h5]

/-- C9 witness: a purely Korean product name slugifies to `"post"`, which
itself satisfies every structural conjunct. -/
theorem slugify_spec_witness :
    (∀ c ∈ ("갤럭시" : String).data, isAsciiAlnum c = false) ∧
    slugify "갤럭시" = "post" := by
  have h := (slugify_spec "갤럭시").2.2.2.2.2 (by decide)
  exact ⟨by decide, h⟩

/-- C1: after the review stage runs on any pipeline state whose
`revision_count` is within the configured ceiling 2, `revision_count` is
still at most 2; and whenever review runs with `revision_count ≥ 2` it sets
`current_post.needs_revision` to `false`, so the conditional edge
`should_revise` routes to `markdown` (`"continue"`) rather than back to
`generate`, regardless of which quality checks failed. -/
theorem review_revision_ceiling (env : Env) (s : BlogState) :
    (s.revision_count ≤ 2 → (review_content env s).revision_count ≤ 2) ∧
    (2 ≤ s.revision_count →
      (review_content env s).current_post.needs_revision = false ∧
      should_revise (review_content env s) = "continue") := by
  unfold review_content
  dsimp only
  split
  · rename_i hcond
    have hlt := hcond.2
    simp only [max_revisions] at hlt
    constructor
    · intro _
      show s.revision_count + 1 ≤ 2
      omega
    · intro h2
      omega
  · rename_i hcond
    constructor
    · intro h2
      exact h2
    · intro _
      refine ⟨rfl, ?_⟩
      simp [should_revise]

/-- C1 witness: a concrete state at the ceiling (`revision_count = 2`) with
failing checks: review leaves the counter at 2, clears `needs_revision`,
and the edge continues to `markdown`. -/
theorem review_revision_ceiling_witness :
    ((({ task := "t", revision_count := 2 } : BlogState)).revision_count ≤ 2 ∧
      2 ≤ (({ task := "t", revision_count := 2 } : BlogState)).revision_count) ∧
    ((review_content {} { task := "t", revision_count := 2 }).revision_count ≤ 2 ∧
      (review_content {} { task := "t", revision_count := 2 }).current_post.needs_revision = false ∧
      should_revise (review_content {} { task := "t", revision_count := 2 }) = "continue") := by
  have h := review_revision_ceiling {} { task := "t", revision_count := 2 }
  exact ⟨⟨by decide, by decide⟩,
    h.1 (by decide), (h.2 (by decide)).1, (h.2 (by decide)).2⟩

/-- C2: duplicate detection flags a product against the ledger exactly when
one lowercased-and-stripped name is a substring of the other (in either
direction); and in `analyze`, with the force-regenerate override unset, a
flagged duplicate moves `current_post.status` to `"duplicate"` and sets
`completed`, short-circuiting the pipeline. -/
theorem duplicate_detection_spec (ledger : LedgerFile) (pname : String)
    (env : Env) (s : BlogState) :
    (is_product_already_reviewed ledger pname = true ↔
      ∃ r ∈ load_generated_reviews ledger,
        normName pname <:+: normName r.product_name ∨
        normName r.product_name <:+: normName pname) ∧
    (env.force_regenerate = false →
      is_product_already_reviewed ledger (analyze_product_name s.task) = true →
      (analyze_task env ledger s).current_post.status = "duplicate" ∧
      (analyze_task env ledger s).completed = true) := by
  constructor
  · unfold is_product_already_reviewed
    rw [List.any_eq_true]
    constructor
    · rintro ⟨r, hr, hb⟩
      refine ⟨r, hr, ?_⟩
      rcases Bool.or_eq_true _ _ |>.mp hb with hb | hb
      · exact Or.inl ((strContains_iff _ _).mp hb)
      · exact Or.inr ((strContains_iff _ _).mp hb)
    · rintro ⟨r, hr, hb⟩
      refine ⟨r, hr, ?_⟩
      rcases hb with hb | hb
      · exact Bool.or_eq_true _ _ |>.mpr (Or.inl ((strContains_iff _ _).mpr hb))
      · exact Bool.or_eq_true _ _ |>.mpr (Or.inr ((strContains_iff _ _).mpr hb))
  · intro henv hdup
    unfold analyze_task
    cases extract_style_reference s.task <;>
      · dsimp only
        rw [if_pos ⟨henv, hdup⟩]
        exact ⟨rfl, rfl⟩

/-- C2 witness: ledger entry "갤럭시 s24", task "갤럭시 S24 리뷰 작성"
(extracted name "갤럭시 S24 리뷰"), which normalizes to a superstring of
the entry: the run is marked duplicate and completed. -/
theorem duplicate_detection_spec_witness :
    (({} : Env).force_regenerate = false ∧
      is_product_already_reviewed
        (.parsed [{ product_name := "갤럭시 s24", filename := "f",
                    created_at := "c", timestamp := 0 }])
        (analyze_product_name "갤럭시 S24 리뷰 작성") = true) ∧
    ((analyze_task {}
        (.parsed [{ product_name := "갤럭시 s24", filename := "f",
                    created_at := "c", timestamp := 0 }])
        { task := "갤럭시 S24 리뷰 작성" }).current_post.status = "duplicate" ∧
      (analyze_task {}
        (.parsed [{ product_name := "갤럭시 s24", filename := "f",
                    created_at := "c", timestamp := 0 }])
        { task := "갤럭시 S24 리뷰 작성" }).completed = true) := by
  refine ⟨⟨by decide, by decide⟩, ?_⟩
  exact (duplicate_detection_spec
    (.parsed [{ product_name := "갤럭시 s24", filename := "f",
                created_at := "c", timestamp := 0 }])
    "x" {} { task := "갤럭시 S24 리뷰 작성" }).2 (by decide) (by decide)

/-- C5: the quality gate is a deterministic pure predicate — two
evaluations of `passes_quality_gates` on identical content (the thresholds
are fixed constants inside it) return the identical result. -/
theorem passes_quality_gates_deterministic (c₁ c₂ : String) (h : c₁ = c₂) :
    passes_quality_gates c₁ = passes_quality_gates c₂ := by rw [h]

/-- C5 witness. -/
theorem passes_quality_gates_deterministic_witness :
    ("### 장점" : String) = "### 장점" ∧
    passes_quality_gates "### 장점" = passes_quality_gates "### 장점" :=
  ⟨rfl, passes_quality_gates_deterministic "### 장점" "### 장점" rfl⟩

/-- C6: for a task carrying a style-reference annotation
`@<name> (<start>-<end>)`, analyze records the file name and line range
separately in the state (`style_reference`), product-name extraction runs
on the annotation-stripped text (`analyze_product_name` starts from
`strip_style_reference`), the stripped text is the task with the matched
annotation (starting `@<name>…`) deleted, and the generate stage places the
stripped text — not the raw task — into the content-generation prompt. -/
theorem style_reference_handling (env : Env) (ledger : LedgerFile) (s : BlogState)
    (fn rng : String)
    (h : extract_style_reference s.task = some ⟨fn, rng, "example_review"⟩) :
    (analyze_task env ledger s).style_reference = some ⟨fn, rng, "example_review"⟩ ∧
    (analyze_task env ledger s).product_name = analyze_product_name s.task ∧
    (∃ pre mid rest : List Char,
        s.task.data = pre ++ ('@' :: (fn.data ++ mid)) ++ rest ∧
        (strip_style_reference s.task).data = pystrip (pre ++ stySubAll rest)) ∧
    (∀ pname : String, strip_style_reference s.task ≠ "" →
        generate_cleaned_task s.task pname = strip_style_reference s.task) := by
  refine ⟨analyze_task_style_reference env ledger s _ h,
    analyze_task_product_name env ledger s, ?_, ?_⟩
  · unfold extract_style_reference at h
    cases hs : stySearchFull s.task.data with
    | none => rw [hs] at h; exact absurd h (by simp)
    | some r =>
      obtain ⟨pre, fn0, ds, es, rest⟩ := r
      rw [hs] at h
      have hfn : fn0 = fn.data := by
        injection h with h
        injection h with h1 h2 h3
        exact (congrArg String.data h1).symm ▸ rfl
      obtain ⟨⟨mid, hmid⟩, hsub⟩ := stySearchFull_decomp _ _ _ _ _ _ hs
      refine ⟨pre, mid, rest, ?_, ?_⟩
      · rw [hmid, hfn]
        simp [List.append_assoc]
      · show pystrip (stySubAll s.task.data) = pystrip (pre ++ stySubAll rest)
        rw [hsub]
  · intro pname h2
    unfold generate_cleaned_task
    dsimp only
    rw [if_neg h2]

/-- C6 witness: the annotated task `"갤럭시 리뷰 @ref.md (1-20)"`: the
reference `{ref.md, 1-20}` is recorded, and the prompt task text equals the
stripped task. -/
theorem style_reference_handling_witness :
    extract_style_reference "갤럭시 리뷰 @ref.md (1-20)" =
      some ⟨"ref.md", "1-20", "example_review"⟩ ∧
    (analyze_task {} .missing
      { task := "갤럭시 리뷰 @ref.md (1-20)" }).style_reference =
      some ⟨"ref.md", "1-20", "example_review"⟩ ∧
    generate_cleaned_task "갤럭시 리뷰 @ref.md (1-20)" "갤럭시" =
      strip_style_reference "갤럭시 리뷰 @ref.md (1-20)" := by
  have h := style_reference_handling {} .missing
    { task := "갤럭시 리뷰 @ref.md (1-20)" } "ref.md" "1-20" (by decide)
  exact ⟨by decide, h.1, h.2.2.2 "갤럭시" (by decide)⟩

/-- C7: when the post-file write raises (modelled by `write_result` being
an error, which `save_post` catches), `save_post` still sets
`current_post.status` to `"saved"`, sets `completed`, records the generated
filename, and appends a `{product_name, filename, created_at}` record to
the ledger. -/
theorem save_post_completes_on_write_failure (senv : SaveEnv) (ledger : LedgerFile)
    (s : BlogState) (msg : String) (_h : senv.write_result = .error msg) :
    (save_post senv ledger s).1.current_post.status = "saved" ∧
    (save_post senv ledger s).1.completed = true ∧
    (save_post senv ledger s).1.current_post.filename =
      some (save_filename senv s) ∧
    (save_post senv ledger s).2 = load_generated_reviews ledger ++
      [{ product_name := s.product_name, filename := save_filename senv s,
         created_at := senv.now_iso, timestamp := senv.now_timestamp }] :=
  ⟨rfl, rfl, rfl, rfl⟩

/-- C7 witness: a concrete failing write still reports a saved, completed
post and appends the ledger record. -/
theorem save_post_completes_on_write_failure_witness :
    ({ write_result := .error "disk full", now_iso := "2025-01-01",
       shortid := "abc123" } : SaveEnv).write_result = .error "disk full" ∧
    (save_post
      { write_result := .error "disk full", now_iso := "2025-01-01", shortid := "abc123" }
      (.parsed []) { product_name := "갤럭시 S24" }).1.completed = true ∧
    (save_post
      { write_result := .error "disk full", now_iso := "2025-01-01", shortid := "abc123" }
      (.parsed []) { product_name := "갤럭시 S24" }).2 =
      [{ product_name := "갤럭시 S24", filename := "review-s24-abc123.md",
         created_at := "2025-01-01", timestamp := 0 }] := by
  have h := save_post_completes_on_write_failure
    { write_result := .error "disk full", now_iso := "2025-01-01", shortid := "abc123" }
    (.parsed []) { product_name := "갤럭시 S24" } "disk full" rfl
  exact ⟨rfl, h.2.1, by rw [h.2.2.2]; decide⟩

/-- C10: `load_generated_reviews` never raises — a missing, unreadable, or
invalid-JSON ledger yields the empty list, the duplicate check then reports
no prior review for any product, and `analyze` proceeds past the duplicate
short-circuit (status stays `"analyzing"`). -/
theorem load_generated_reviews_error_fallback :
    load_generated_reviews .missing = [] ∧
    load_generated_reviews .unreadable = [] ∧
    load_generated_reviews .invalidJson = [] ∧
    (∀ p : String,
      is_product_already_reviewed .missing p = false ∧
      is_product_already_reviewed .unreadable p = false ∧
      is_product_already_reviewed .invalidJson p = false) ∧
    (∀ (env : Env) (s : BlogState),
      (analyze_task env .unreadable s).current_post.status = "analyzing" ∧
      should_continue_after_analyze (analyze_task env .unreadable s) = "research") := by
  refine ⟨rfl, rfl, rfl, fun p => ⟨rfl, rfl, rfl⟩, fun env s => ?_⟩
  have hst : (analyze_task env .unreadable s).current_post.status = "analyzing" := by
    unfold analyze_task
    cases extract_style_reference s.task <;>
      · dsimp only
        rw [if_neg (by simp [is_product_already_reviewed, load_generated_reviews])]
  exact ⟨hst, by simp [should_continue_after_analyze, hst]⟩

end ReviewBlog
